import Mathlib

/-!
Verification of the Pimlico rule parser (src/pimlico/rule.hpp).

The development embeds the `Rule` data model and `Rule::parse` from
`src/pimlico/rule.hpp` as executable Lean functions.  The collaborators
that are not part of the repository snapshot (`TextBuffer`, `Term`,
`SyntaxError`) are modelled from the specification's interface
descriptions; their definitions carry a `Modelled from the spec:` note.
The buffer is a character list with a cursor index; positions, line
numbers and indentation are derived from the text.
-/

namespace Pimlico

/-- Modelled from the spec: the Term sub-parser's result value.  The term
grammar itself is out of scope; a term is represented by its source text. -/
structure Term : Type where
  text : String
deriving DecidableEq, Repr

/-- Modelled from the spec: a line/column snapshot of the cursor.  The raw
character index is kept alongside so a position can be restored exactly. -/
structure Position : Type where
  index : Nat
  line_number : Nat
  column : Nat
deriving DecidableEq, Repr

/-- Modelled from the spec: a diagnostic record, a message with the
position it was reported at. -/
structure SyntaxError : Type where
  message : String
  position : Position
deriving DecidableEq, Repr

/-- Character class scanned for rule names in `Rule::parse`: `[a-z_]`. -/
def isNameChar (c : Char) : Bool :=
  (97 ≤ c.toNat && c.toNat ≤ 122) || c.toNat == 95

/-- Inline space characters skipped by `skip_space`. -/
def isSpaceTab (c : Char) : Bool :=
  c == ' ' || c == '\t'

/-- Whitespace characters skipped by `skip_whitespace`. -/
def isWhite (c : Char) : Bool :=
  c == ' ' || c == '\t' || c == '\n' || c == '\r'

/-- Modelled from the spec: the in-memory text buffer with a cursor.
The missing repository file `text_buffer.hpp` declares this interface;
only the operations used by `Rule::parse` are modelled. -/
structure TextBuffer : Type where
  text : List Char
  index : Nat
deriving DecidableEq, Repr

namespace TextBuffer

/-- The characters at and after the cursor. -/
def remaining (b : TextBuffer) : List Char :=
  b.text.drop b.index

/-- Advance the cursor by `n` characters. -/
def advance (b : TextBuffer) (n : Nat) : TextBuffer :=
  ⟨b.text, b.index + n⟩

/-- Place the cursor at an absolute index (used to restore a saved
position). -/
def withIndex (b : TextBuffer) (i : Nat) : TextBuffer :=
  ⟨b.text, i⟩

/-- Modelled from the spec: one-character lookahead; a null character
stands for end of input. -/
def peek (b : TextBuffer) : Char :=
  b.remaining.headD '\x00'

/-- Modelled from the spec: end-of-input test. -/
def end_reached (b : TextBuffer) : Bool :=
  b.text.length ≤ b.index

/-- Zero-based number of the line containing index `i` of `text`. -/
def lineNumberOf (text : List Char) (i : Nat) : Nat :=
  (text.take i).count '\n'

/-- Index of the first character of line `n` of `text` (the text length
when the line does not exist). -/
def startOfLine : List Char → Nat → Nat
  | _, 0 => 0
  | [], _ + 1 => 0
  | c :: rest, n + 1 =>
    if c == '\n' then 1 + startOfLine rest n else 1 + startOfLine rest (n + 1)

/-- Leading-whitespace width of line `n` of `text` (spaces only; the
grammar format uses space indentation). -/
def lineIndent (text : List Char) (n : Nat) : Nat :=
  ((text.drop (startOfLine text n)).takeWhile (fun c => c == ' ')).length

/-- Modelled from the spec: the line/column snapshot of the cursor. -/
def position (b : TextBuffer) : Position :=
  ⟨b.index, lineNumberOf b.text b.index,
    b.index - startOfLine b.text (lineNumberOf b.text b.index)⟩

/-- Modelled from the spec: indentation measurement of the current line,
independent of the cursor's column within the line. -/
def indentation (b : TextBuffer) : Nat :=
  lineIndent b.text (lineNumberOf b.text b.index)

/-- Modelled from the spec: skip inline spaces.  The flag allows skipping
line-continuation separators; continuations are not part of the modelled
grammar, so the flag does not change the modelled behaviour. -/
def skip_space (b : TextBuffer) (_allow_newline : Bool) : TextBuffer :=
  b.advance (b.remaining.takeWhile isSpaceTab).length

/-- Modelled from the spec: skip all whitespace, newlines included. -/
def skip_whitespace (b : TextBuffer) : TextBuffer :=
  b.advance (b.remaining.takeWhile isWhite).length

/-- Indentation of the first subsequent line holding a non-space,
non-newline character; scanning starts right after a newline. -/
def nextContentIndent (ind : Nat) : List Char → Option Nat
  | [] => none
  | c :: rest =>
    if c == ' ' then nextContentIndent (ind + 1) rest
    else if c == '\n' then nextContentIndent 0 rest
    else some ind

/-- Modelled from the spec: indentation delta of the next content line
(strictly after the cursor's line) relative to a reference line; zero when
no content follows. -/
def indentation_delta (b : TextBuffer) (reference_line : Nat) : Int :=
  let toEol := (b.remaining.takeWhile (fun c => c != '\n')).length
  match b.text.drop (b.index + toEol) with
  | [] => 0
  | _ :: rest =>
    match nextContentIndent 0 rest with
    | none => 0
    | some ind => (ind : Int) - (lineIndent b.text reference_line : Int)

/-- Scanner for `skip_block`: starting mid-line, returns the number of
characters to consume so that the cursor stops at the newline preceding
the first subsequent content line indented at most `base` (or at the end
of the text when the block runs out). -/
def skipBlockAux (base : Nat) (lastEol pos ind : Nat) (atLineStart : Bool) :
    List Char → Nat
  | [] => pos
  | c :: rest =>
    if atLineStart then
      if c == ' ' then skipBlockAux base lastEol (pos + 1) (ind + 1) true rest
      else if c == '\n' then skipBlockAux base pos (pos + 1) 0 true rest
      else if ind ≤ base then lastEol
      else skipBlockAux base lastEol (pos + 1) 0 false rest
    else
      if c == '\n' then skipBlockAux base pos (pos + 1) 0 true rest
      else skipBlockAux base lastEol (pos + 1) 0 false rest

/-- Modelled from the spec: the block-recovery primitive, advancing the
cursor past the remainder of the current indented block. -/
def skip_block (b : TextBuffer) : TextBuffer :=
  b.advance (skipBlockAux b.indentation 0 0 0 false b.remaining)

end TextBuffer

/-- Modelled from the spec: the Term sub-parser.  It consumes one term
expression (here: the remainder of the line) and either returns the term,
appending nothing, or fails having appended a diagnostic. -/
def Term.parse (b : TextBuffer) (errors : List SyntaxError) (_allow_newline : Bool) :
    Option Term × TextBuffer × List SyntaxError :=
  let chars := b.remaining.takeWhile (fun c => c != '\n')
  if chars.isEmpty then
    (none, b, errors ++ [⟨"expected term", b.position⟩])
  else
    (some ⟨⟨chars⟩⟩, b.advance chars.length, errors)

mutual

/-- The `Rule` node of src/pimlico/rule.hpp: value (the
`variant<shared_ptr<Term>, vector<shared_ptr<Rule>>>`), position, scope,
name and the `terminal` discriminant, in declaration order.  A
default-constructed node (`new Rule()`) is value-initialised: null term
pointer, empty scope and name, `terminal = false`. -/
inductive Rule : Type where
  | mk : RuleValue → Position → List String → String → Bool → Rule
deriving DecidableEq, Repr

/-- The two alternatives of the `value` variant: a (possibly null) owned
term, or a child list. -/
inductive RuleValue : Type where
  | term : Option Term → RuleValue
  | children : RuleList → RuleValue
deriving DecidableEq, Repr

/-- The `vector<shared_ptr<Rule>>` of child rules. -/
inductive RuleList : Type where
  | nil : RuleList
  | cons : Rule → RuleList → RuleList
deriving DecidableEq, Repr

end

namespace RuleList

/-- Build a `RuleList` from a Lean list. -/
def ofList : List Rule → RuleList
  | [] => .nil
  | r :: rest => .cons r (ofList rest)

/-- View a `RuleList` as a Lean list. -/
def toList : RuleList → List Rule
  | .nil => []
  | .cons r rest => r :: toList rest

/-- Emptiness test, matching `std::vector::empty`. -/
def isEmpty : RuleList → Bool
  | .nil => true
  | .cons _ _ => false

end RuleList

namespace Rule

/-- Field accessor for `value`. -/
def value : Rule → RuleValue
  | .mk v _ _ _ _ => v

/-- Field accessor for `position`. -/
def position : Rule → Position
  | .mk _ p _ _ _ => p

/-- Field accessor for `scope`. -/
def scope : Rule → List String
  | .mk _ _ s _ _ => s

/-- Field accessor for `name`. -/
def name : Rule → String
  | .mk _ _ _ n _ => n

/-- Field accessor for `terminal`. -/
def terminal : Rule → Bool
  | .mk _ _ _ _ t => t

mutual

/-- `Rule::add_parent_scope`: push the parent name onto this rule's scope
and, when `terminal` is false, recurse into the children.  The case where
`terminal` is false but the variant holds a term (a `bad_variant_access`
in C++) is unreachable for parser-created rules (see the well-formedness
invariant) and leaves the value unchanged here. -/
def add_parent_scope (parent : String) : Rule → Rule
  | .mk v pos sc n t =>
    let v' : RuleValue :=
      match t, v with
      | false, .children cs => .children (addScopeList parent cs)
      | _, v => v
    .mk v' pos (sc ++ [parent]) n t

/-- Apply `add_parent_scope` to every rule of a child list. -/
def addScopeList (parent : String) : RuleList → RuleList
  | .nil => .nil
  | .cons r rest => .cons (add_parent_scope parent r) (addScopeList parent rest)

end

end Rule

/-- Outcome of `Rule::parse`: a rule, the null-pointer failure sentinel,
or a thrown `ParseLogicError` (a non-recoverable internal fault). -/
inductive PResult : Type where
  | ok : Rule → PResult
  | fail : PResult
  | fault : String → PResult
deriving DecidableEq, Repr

/-- View the parsed rule of an `ok` outcome. -/
def PResult.toRule : PResult → Option Rule
  | .ok r => some r
  | _ => none

/-- Outcome of the child-collection loop of `Rule::parse` (lines 145-176
of rule.hpp): `done errors_found children` when the loop exits at a
non-positive delta, `abort` when a bad indentation increase fails the
whole rule from inside the loop, `fault` for a propagated internal
fault. -/
inductive LoopResult : Type where
  | done : Bool → List Rule → LoopResult
  | abort : LoopResult
  | fault : String → LoopResult
deriving DecidableEq, Repr

namespace Rule

/-- The child-collection loop of `Rule::parse` (`while(true)` at line 145
of rule.hpp), with the recursive call abstracted as `parseF`.  Per
iteration: a non-positive indentation delta ends the loop; a delta other
than one unit appends an "unexpected indentation increase" diagnostic,
skips the block and fails the whole rule; otherwise the child is parsed,
a failed child is block-skipped and recorded in `errors_found`, and a
successful child is scoped with the rule's name and appended.  Fuel
exhaustion stands for non-termination and is reported as a fault. -/
def childLoop
    (parseF : TextBuffer → List SyntaxError → Nat →
      PResult × TextBuffer × List SyntaxError) :
    Nat → TextBuffer → List SyntaxError → Nat → String → Nat → Bool →
      List Rule → LoopResult × TextBuffer × List SyntaxError
  | 0, b, errors, _, _, _, _, _ => (.fault "fuel exhausted", b, errors)
  | fuel + 1, b, errors, parent_count, nm, reference_line, errors_found, children =>
    let delta := b.indentation_delta reference_line
    if delta ≤ 0 then
      (.done errors_found children, b, errors)
    else if delta ≠ 4 then
      let b1 := b.skip_whitespace
      (.abort, b1.skip_block,
        errors ++ [⟨"unexpected indentation increase", b1.position⟩])
    else
      let b1 := b.skip_whitespace
      match parseF b1 errors (parent_count + 1) with
      | (.fault m, b2, errors2) => (.fault m, b2, errors2)
      | (.fail, b2, errors2) =>
        childLoop parseF fuel b2.skip_block errors2 parent_count nm
          reference_line true children
      | (.ok child, b2, errors2) =>
        if b2.end_reached == false && b2.peek != '\n' then
          (.fault "incomplete rule parse", b2, errors2)
        else
          childLoop parseF fuel b2 errors2 parent_count nm reference_line
            errors_found (children ++ [child.add_parent_scope nm])

/-- `Rule::parse` of src/pimlico/rule.hpp, line for line: record the
start position; check the indentation is a multiple of four and equal to
`parent_count * 4`; scan the `[a-z_]` name (an empty name is an internal
fault); then dispatch on `':'` (terminal rule via the Term sub-parser),
`"..."` (name-extension rule via the child loop) or neither (diagnostic
and block recovery).  Fuel exhaustion is reported as a fault. -/
def parse : Nat → TextBuffer → List SyntaxError → Nat →
    PResult × TextBuffer × List SyntaxError
  | 0, b, errors, _ => (.fault "fuel exhausted", b, errors)
  | fuel + 1, b, errors, parent_count =>
    let position := b.position
    let indentation := b.indentation
    if indentation % 4 ≠ 0 then
      (.fail, b, errors ++ [⟨"invalid indentation level", b.position⟩])
    else if indentation ≠ parent_count * 4 then
      (.fail, b, errors ++ [⟨"unexpected indentation increase", b.position⟩])
    else
      let nameChars := b.remaining.takeWhile isNameChar
      let nm : String := ⟨nameChars⟩
      let b1 := b.advance nameChars.length
      if nameChars.isEmpty then
        (.fault "no rule found", b1, errors)
      else
        let b2 := b1.skip_space false
        if b2.peek == ':' then
          let b3 := (b2.advance 1).skip_space true
          match Term.parse b3 errors true with
          | (none, b4, errors1) => (.fail, b4.skip_block, errors1)
          | (some term, b4, errors1) =>
            (.ok (.mk (.term (some term)) position [] nm true), b4, errors1)
        else if List.isPrefixOf ['.', '.', '.'] b2.remaining then
          let b3 := (b2.advance 3).skip_space true
          let trailing : Bool := b3.peek != '\n'
          let errors1 :=
            if trailing then
              errors ++ [⟨"trailing characters after \x27...\x27", b3.position⟩]
            else errors
          match childLoop (parse fuel) fuel b3 errors1 parent_count nm
              position.line_number trailing [] with
          | (.fault m, b4, errors2) => (.fault m, b4, errors2)
          | (.abort, b4, errors2) => (.fail, b4, errors2)
          | (.done errors_found children, b4, errors2) =>
            if errors_found then
              (.fail, b4, errors2)
            else if children.isEmpty then
              let b5 := b4.withIndex position.index
              (.fail, b5, errors2 ++
                [⟨"no children found for name-extended rule \x27" ++ nm ++ "\x27",
                  b5.position⟩])
            else
              (.ok (.mk (.children (RuleList.ofList children)) position [] nm false),
                b4, errors2)
        else
          (.fail, b2.skip_block,
            errors ++ [⟨"expected \x27:\x27 or \x27...\x27", b2.position⟩])

/-- First element of a non-terminal rule's child list. -/
def firstChild : Rule → Option Rule
  | .mk (.children (.cons c _)) _ _ _ _ => some c
  | _ => none

end Rule

/-- Advancing a cursor by zero characters leaves the buffer unchanged. -/
theorem TextBuffer.advance_zero (b : TextBuffer) : b.advance 0 = b := rfl

/-- The nested name-extension example of the specification:
`foo...` containing `bar...` containing `qux: a`. -/
def nestedText : List Char := "foo...\n    bar...\n        qux: a\n".toList

/-- The `qux: a` rule as built by the parser from `nestedText`: its scope
ends up `["bar", "foo"]`, innermost ancestor first. -/
def quxRule : Rule := .mk (.term (some ⟨"a"⟩)) ⟨26, 2, 8⟩ ["bar", "foo"] "qux" true

/-- The `bar...` rule as built by the parser from `nestedText`. -/
def barRule : Rule := .mk (.children (.cons quxRule .nil)) ⟨11, 1, 4⟩ ["foo"] "bar" false

/-- The `foo...` rule as built by the parser from `nestedText`. -/
def fooRule : Rule := .mk (.children (.cons barRule .nil)) ⟨0, 0, 0⟩ [] "foo" false

/-- C1 counterexample: parsing `foo...` containing `bar...` containing
`qux: a` succeeds, but `qux`'s scope is `["bar", "foo"]`, not the claimed
`["foo", "bar"]`: `Rule::add_parent_scope` push-backs each ancestor name
as that ancestor finishes, so inner names land first. -/
theorem scope_order_counterexample :
    ((((Rule.parse 8 ⟨nestedText, 0⟩ [] 0).1.toRule.bind
        Rule.firstChild).bind Rule.firstChild).map Rule.scope)
        = some ["bar", "foo"] ∧
      some ["bar", "foo"] ≠ some [("foo" : String), "bar"] :=
  ⟨by decide, by decide⟩

/-- A name-extension line with trailing junk and no children. -/
def trailingText : List Char := "foo... x\n".toList

/-- A name-extension line with trailing junk followed by a child line. -/
def trailingChildText : List Char := "foo... x\n    bar: a\n".toList

/-- C3 counterexample: on `foo... x` the parser appends the
"trailing characters" diagnostic, no child ever fails (there are none),
yet the failure sentinel is returned instead of a rule: the diagnostic
sets `errors_found`, which fails the rule after the loop. -/
theorem trailing_characters_counterexample :
    Rule.parse 3 ⟨trailingText, 0⟩ [] 0 =
      (.fail, ⟨trailingText, 7⟩,
        [⟨"trailing characters after \x27...\x27", ⟨7, 0, 7⟩⟩]) := by
  decide

/-- C5: whenever the current line's leading-whitespace width is not a
multiple of four, `Rule::parse` fails immediately with exactly one
"invalid indentation level" diagnostic, leaving the buffer untouched
(no content consumed, no block recovery). -/
theorem invalid_indentation_fails (fuel : Nat) (b : TextBuffer)
    (errors : List SyntaxError) (parent_count : Nat)
    (h : b.indentation % 4 ≠ 0) :
    Rule.parse (fuel + 1) b errors parent_count =
      (.fail, b, errors ++ [⟨"invalid indentation level", b.position⟩]) := by
  simp [Rule.parse, h]

/-- Witness for C5 at the concrete line `"  x: a"` (indentation two). -/
theorem invalid_indentation_fails_witness :
    Rule.parse 1 ⟨"  x: a".toList, 0⟩ [] 0 =
      (.fail, ⟨"  x: a".toList, 0⟩,
        [⟨"invalid indentation level", TextBuffer.position ⟨"  x: a".toList, 0⟩⟩]) :=
  invalid_indentation_fails 0 ⟨"  x: a".toList, 0⟩ [] 0 (by decide)

/-- C10: when both indentation checks pass but no `[a-z_]` character can
be consumed, `Rule::parse` raises the "no rule found" internal fault: no
diagnostic is appended (the sink is returned unchanged) and no failure
sentinel is produced. -/
theorem empty_name_internal_fault (fuel : Nat) (b : TextBuffer)
    (errors : List SyntaxError) (parent_count : Nat)
    (h4 : b.indentation % 4 = 0) (hd : b.indentation = parent_count * 4)
    (hname : b.remaining.takeWhile isNameChar = []) :
    Rule.parse (fuel + 1) b errors parent_count =
      (.fault "no rule found", b, errors) := by
  simp [Rule.parse, h4, hd, hname, TextBuffer.advance_zero]

/-- Witness for C10 at the concrete line `"123"`. -/
theorem empty_name_internal_fault_witness :
    Rule.parse 1 ⟨"123".toList, 0⟩ [] 0 =
      (.fault "no rule found", ⟨"123".toList, 0⟩, []) :=
  empty_name_internal_fault 0 ⟨"123".toList, 0⟩ [] 0 (by decide) (by decide)
    (by decide)

/-- Take-while distributes over an append whose first part satisfies the
predicate throughout. -/
theorem takeWhile_append_of_all {α : Type} {p : α → Bool} (l₁ l₂ : List α)
    (h : ∀ c ∈ l₁, p c = true) :
    (l₁ ++ l₂).takeWhile p = l₁ ++ l₂.takeWhile p := by
  induction l₁ with
  | nil => simp
  | cons c t ih =>
    have hc := h c (List.mem_cons_self c t)
    have ht : ∀ x ∈ t, p x = true := fun x hx => h x (List.mem_cons_of_mem c hx)
    simp [List.takeWhile_cons, hc, ih ht]

/-- Take-while keeps a list all of whose elements satisfy the predicate. -/
theorem takeWhile_eq_self_of_all {α : Type} {p : α → Bool} (l : List α)
    (h : ∀ c ∈ l, p c = true) : l.takeWhile p = l := by
  simpa using takeWhile_append_of_all l [] h

/-- Source text of a depth-zero terminal declaration with term text
`rest`. -/
def terminalText (rest : List Char) : List Char := 'f' :: 'o' :: 'o' :: ':' :: ' ' :: rest

set_option maxHeartbeats 2000000 in
/-- C9: a terminal declaration `foo: <term>` at depth zero parses to a
rule named "foo" with `terminal = true`, empty scope, and a value that is
exactly the Term returned by the Term sub-parser at the character after
the separating space, unchanged. -/
theorem terminal_rule_parse (rest : List Char) (hne : rest ≠ [])
    (hhead : ∀ c, rest.head? = some c → isSpaceTab c = false)
    (hnl : ∀ c ∈ rest, (c != '\n') = true) :
    Rule.parse 1 ⟨terminalText rest, 0⟩ [] 0 =
      (.ok (.mk (.term (some ⟨⟨rest⟩⟩)) ⟨0, 0, 0⟩ [] "foo" true),
        ⟨terminalText rest, 5 + rest.length⟩, []) ∧
    Term.parse ⟨terminalText rest, 5⟩ [] true =
      (some ⟨⟨rest⟩⟩, ⟨terminalText rest, 5 + rest.length⟩, []) := by
  obtain ⟨c, t, rfl⟩ : ∃ c t, rest = c :: t := by
    cases rest with
    | nil => exact absurd rfl hne
    | cons c t => exact ⟨c, t, rfl⟩
  have hc : (c == ' ' || c == '\t') = false := hhead c rfl
  have hrest : List.takeWhile (fun x => x != '\n') (c :: t) = c :: t :=
    takeWhile_eq_self_of_all _ hnl
  have hskip : TextBuffer.skip_space ⟨terminalText (c :: t), 4⟩ true =
      ⟨terminalText (c :: t), 5⟩ := by
    have h1 : (TextBuffer.remaining ⟨terminalText (c :: t), 4⟩).takeWhile isSpaceTab
        = [' '] := by
      show List.takeWhile isSpaceTab (' ' :: c :: t) = [' ']
      simp [isSpaceTab, hc]
    show TextBuffer.advance _ _ = _
    rw [h1]
    rfl
  have hterm : Term.parse ⟨terminalText (c :: t), 5⟩ [] true =
      (some ⟨⟨c :: t⟩⟩, ⟨terminalText (c :: t), 5 + (c :: t).length⟩, []) := by
    simp only [Term.parse, TextBuffer.remaining, terminalText,
      List.drop_succ_cons, List.drop_zero, hrest, List.isEmpty_cons,
      TextBuffer.advance, Bool.false_eq_true, if_false]
  have step1 : Rule.parse 1 ⟨terminalText (c :: t), 0⟩ [] 0 =
      (match Term.parse (TextBuffer.skip_space ⟨terminalText (c :: t), 4⟩ true)
          [] true with
        | (none, b4, errors1) => (.fail, b4.skip_block, errors1)
        | (some term, b4, errors1) =>
          (.ok (.mk (.term (some term)) ⟨0, 0, 0⟩ [] "foo" true), b4, errors1)) :=
    rfl
  refine ⟨?_, hterm⟩
  rw [step1, hskip, hterm]

/-- Witness for C9 with term text "a". -/
theorem terminal_rule_parse_witness :
    Rule.parse 1 ⟨terminalText ['a'], 0⟩ [] 0 =
      (.ok (.mk (.term (some ⟨⟨['a']⟩⟩)) ⟨0, 0, 0⟩ [] "foo" true),
        ⟨terminalText ['a'], 5 + ['a'].length⟩, []) ∧
    Term.parse ⟨terminalText ['a'], 5⟩ [] true =
      (some ⟨⟨['a']⟩⟩, ⟨terminalText ['a'], 5 + ['a'].length⟩, []) :=
  terminal_rule_parse ['a'] (by decide)
    (fun c h => by cases h; decide) (by decide)


/-- Source text of a depth-zero name-extension declaration with no
children: the name, `...`, and a newline. -/
def extensionText (nm : List Char) : List Char := nm ++ ['.', '.', '.', '\n']

/-- A name character never equals a non-name character. -/
theorem isNameChar_beq_false {c d : Char} (h : isNameChar c = true)
    (hd : isNameChar d = false) : (c == d) = false := by
  cases hb : c == d with
  | false => rfl
  | true =>
    have : c = d := eq_of_beq hb
    subst this
    rw [h] at hd
    exact absurd hd (by decide)

set_option maxHeartbeats 2000000 in
/-- C7: a name-extension rule whose child loop collects no children and
sees no failed child appends one diagnostic whose message is
"no children found for name-extended rule \'<name>\'", positioned at the
rule's own starting position (the buffer is restored there), and returns
the failure sentinel. -/
theorem no_children_diagnostic (nm : List Char) (hne : nm ≠ [])
    (hAll : ∀ c ∈ nm, isNameChar c = true) :
    Rule.parse 2 ⟨extensionText nm, 0⟩ [] 0 =
      (.fail, ⟨extensionText nm, 0⟩,
        [⟨"no children found for name-extended rule \x27" ++ (⟨nm⟩ : String) ++ "\x27",
          ⟨0, 0, 0⟩⟩]) := by
  obtain ⟨c, t, rfl⟩ : ∃ c t, nm = c :: t := by
    cases nm with
    | nil => exact absurd rfl hne
    | cons c t => exact ⟨c, t, rfl⟩
  have hc : isNameChar c = true := hAll c (List.mem_cons_self c t)
  have hcsp : (c == ' ') = false := isNameChar_beq_false hc (by decide)
  -- indentation of the start line is zero
  have h_ind : TextBuffer.indentation ⟨extensionText (c :: t), 0⟩ = 0 := by
    show (List.takeWhile (fun x => x == ' ')
      (List.drop (TextBuffer.startOfLine (extensionText (c :: t)) 0) (extensionText (c :: t)))).length = 0
    simp only [TextBuffer.startOfLine, List.drop_zero, extensionText, List.cons_append,
      List.takeWhile_cons, hcsp, Bool.false_eq_true, if_false, List.length_nil]
  -- the scanned name is exactly nm
  have h_name : List.takeWhile isNameChar (extensionText (c :: t)) = c :: t := by
    rw [extensionText, takeWhile_append_of_all _ _ hAll]
    simp only [show List.takeWhile isNameChar ['.', '.', '.', '\n'] = [] from rfl,
      List.append_nil]
  have h_drop : (extensionText (c :: t)).drop ((c :: t).length) = ['.', '.', '.', '\n'] := by
    rw [extensionText]
    exact List.drop_left _ _
  have h_rem3 : (extensionText (c :: t)).drop ((c :: t).length + 3) = ['\n'] := by
    rw [extensionText, List.drop_append]
    rfl
  have h_delta : TextBuffer.indentation_delta ⟨extensionText (c :: t), (c :: t).length + 3⟩ 0 = 0 := by
    simp only [TextBuffer.indentation_delta, TextBuffer.remaining, h_rem3,
      show List.takeWhile (fun x => x != '\n') ['\n'] = [] from rfl,
      List.length_nil, Nat.add_zero, TextBuffer.nextContentIndent]
  have h_loop : ∀ parseF, Rule.childLoop parseF 1 ⟨extensionText (c :: t), (c :: t).length + 3⟩
      [] 0 ⟨c :: t⟩ 0 false [] =
      (.done false [], ⟨extensionText (c :: t), (c :: t).length + 3⟩, []) := by
    intro parseF
    simp only [Rule.childLoop, h_delta]
    norm_num
  -- assembly
  simp only [Rule.parse, TextBuffer.position, TextBuffer.lineNumberOf, List.take_zero,
    List.count_nil, TextBuffer.startOfLine, Nat.sub_zero, h_ind, h_name,
    TextBuffer.remaining, TextBuffer.advance, TextBuffer.skip_space, TextBuffer.peek,
    TextBuffer.withIndex, Nat.zero_add, Nat.add_zero, h_drop, h_rem3, List.drop_zero,
    show List.takeWhile isSpaceTab ['\n'] = [] from rfl,
    List.isEmpty_cons, Nat.zero_mod, Nat.zero_mul, ne_eq,
    show List.takeWhile isSpaceTab ['.', '.', '.', '\n'] = [] from rfl,
    List.length_nil, List.headD_cons,
    show (('.' : Char) == ':') = false from rfl,
    show List.isPrefixOf ['.', '.', '.'] ['.', '.', '.', '\n'] = true from rfl,
    show (('\n' : Char) != '\n') = false from rfl,
    Bool.false_eq_true, if_false, if_true, not_true, not_false_iff, eq_self_iff_true,
    h_loop, List.isEmpty_nil, List.nil_append]


/-- Witness for C7 with the name "foo". -/
theorem no_children_diagnostic_witness :
    Rule.parse 2 ⟨extensionText ['f', 'o', 'o'], 0⟩ [] 0 =
      (.fail, ⟨extensionText ['f', 'o', 'o'], 0⟩,
        [⟨"no children found for name-extended rule \x27" ++
            (⟨['f', 'o', 'o']⟩ : String) ++ "\x27", ⟨0, 0, 0⟩⟩]) :=
  no_children_diagnostic ['f', 'o', 'o'] (by decide) (by decide)

theorem parse_ext (fuel : Nat) (b b2 b3 b4 : TextBuffer) (errors e2 : List SyntaxError)
    (pc : Nat) (nameChars : List Char) (tr : Bool) (res : LoopResult)
    (h4 : b.indentation % 4 = 0) (hpc : b.indentation = pc * 4)
    (hname : b.remaining.takeWhile isNameChar = nameChars)
    (hne : nameChars.isEmpty = false)
    (hb2 : (b.advance nameChars.length).skip_space false = b2)
    (hcolon : (b2.peek == ':') = false)
    (hdots : List.isPrefixOf ['.', '.', '.'] b2.remaining = true)
    (hb3 : (b2.advance 3).skip_space true = b3)
    (htrail : (b3.peek != '\n') = tr)
    (hloop : Rule.childLoop (Rule.parse fuel) fuel b3
        (if tr then errors ++ [⟨"trailing characters after \x27...\x27", b3.position⟩]
          else errors)
        pc ⟨nameChars⟩ b.position.line_number tr [] = (res, b4, e2)) :
    Rule.parse (fuel + 1) b errors pc =
      (match res with
        | .fault m => (.fault m, b4, e2)
        | .abort => (.fail, b4, e2)
        | .done ef cs =>
          if ef then (.fail, b4, e2)
          else if cs.isEmpty then
            (.fail, b4.withIndex b.position.index, e2 ++
              [⟨"no children found for name-extended rule \x27" ++
                  (⟨nameChars⟩ : String) ++ "\x27",
                (b4.withIndex b.position.index).position⟩])
          else
            (.ok (.mk (.children (RuleList.ofList cs)) b.position [] ⟨nameChars⟩ false),
              b4, e2)) := by
  cases res <;>
    simp only [Rule.parse, h4, hpc, hname, hne, hb2, hcolon, hdots, hb3, htrail, hloop,
      Bool.false_eq_true, if_false, if_true, ne_eq, eq_self_iff_true, not_true,
      not_false_iff, Nat.mul_mod_left, not_true_eq_false]


def c6bar : List Char := ['b', 'a', 'r', ':', ' ', 'a']

def c6text (k : Nat) : List Char :=
  ['f', 'o', 'o', '.', '.', '.', '\n'] ++ (List.replicate k ' ' ++ c6bar)

theorem nextContentIndent_replicate (k : Nat) (c : Char) (l : List Char)
    (h1 : (c == ' ') = false) (h2 : (c == '\n') = false) :
    ∀ ind, TextBuffer.nextContentIndent ind (List.replicate k ' ' ++ c :: l) =
      some (ind + k) := by
  induction k with
  | zero => intro ind; simp [TextBuffer.nextContentIndent, h1, h2]
  | succ n ih =>
    intro ind
    rw [List.replicate_succ, List.cons_append]
    rw [show TextBuffer.nextContentIndent ind (' ' :: (List.replicate n ' ' ++ c :: l)) =
        TextBuffer.nextContentIndent (ind + 1) (List.replicate n ' ' ++ c :: l) from by
      simp [TextBuffer.nextContentIndent]]
    rw [ih]
    congr 1
    omega

theorem c6_loop (k : Nat) (hk : 0 < k) (hk4 : k ≠ 4) (fuel : Nat)
    (parseF : TextBuffer → List SyntaxError → Nat → PResult × TextBuffer × List SyntaxError) :
    Rule.childLoop parseF (fuel + 1) ⟨c6text k, 6⟩ [] 0 (⟨['f', 'o', 'o']⟩ : String) 0
        false [] =
      (.abort, ⟨c6text k, 13 + k⟩,
        [⟨"unexpected indentation increase", ⟨7 + k, 1, k⟩⟩]) := by
  have h_drop6 : (c6text k).drop 6 = '\n' :: (List.replicate k ' ' ++ c6bar) := by
    simp [c6text]
  have h_nci : TextBuffer.nextContentIndent 0 (List.replicate k ' ' ++ c6bar) = some k := by
    have := nextContentIndent_replicate k 'b' ['a', 'r', ':', ' ', 'a'] rfl rfl 0
    simpa [c6bar] using this
  have h_li0 : TextBuffer.lineIndent (c6text k) 0 = 0 := by
    simp [TextBuffer.lineIndent, TextBuffer.startOfLine, c6text]
  have h_delta : TextBuffer.indentation_delta ⟨c6text k, 6⟩ 0 = (k : Int) := by
    simp [TextBuffer.indentation_delta, TextBuffer.remaining, h_drop6, h_nci, h_li0]
  have h_spaces_white : ∀ x ∈ List.replicate k ' ', isWhite x = true := fun x hx => by
    rw [List.eq_of_mem_replicate hx]; rfl
  have h_tw_white : List.takeWhile isWhite (List.replicate k ' ' ++ c6bar) =
      List.replicate k ' ' := by
    rw [takeWhile_append_of_all _ _ h_spaces_white]
    simp [c6bar, isWhite]
  have h_sw : TextBuffer.skip_whitespace ⟨c6text k, 6⟩ = ⟨c6text k, 7 + k⟩ := by
    simp only [TextBuffer.skip_whitespace, TextBuffer.remaining, h_drop6, TextBuffer.advance,
      List.takeWhile_cons, show isWhite '\n' = true from rfl, eq_self_iff_true, if_true,
      h_tw_white, List.length_cons, List.length_replicate]
    simp only [TextBuffer.mk.injEq, true_and]
    omega
  have h_take : (c6text k).take (7 + k) =
      ['f', 'o', 'o', '.', '.', '.', '\n'] ++ List.replicate k ' ' := by
    have h7 : (7 : Nat) + k = (['f', 'o', 'o', '.', '.', '.', '\n'] : List Char).length + k := by
      simp
    rw [c6text, h7, List.take_append]
    congr 1
    exact List.take_left' (by simp)
  have h_count : List.count '\n' (['f', 'o', 'o', '.', '.', '.', '\n'] ++ List.replicate k ' ')
      = 1 := by
    rw [List.count_append, show List.count '\n' ['f', 'o', 'o', '.', '.', '.', '\n'] = 1 from rfl]
    simp [List.count_replicate]
  have h_sol : TextBuffer.startOfLine (c6text k) 1 = 7 := by
    simp [c6text, TextBuffer.startOfLine]
  have h_pos1 : TextBuffer.position ⟨c6text k, 7 + k⟩ = ⟨7 + k, 1, k⟩ := by
    simp only [TextBuffer.position, TextBuffer.lineNumberOf, h_take, h_count, h_sol]
    simp only [Position.mk.injEq, true_and]
    omega
  have h_drop7 : (c6text k).drop 7 = List.replicate k ' ' ++ c6bar := by
    rw [c6text]
    exact List.drop_left' (by simp)
  have h_sp_space : ∀ x ∈ List.replicate k ' ', (x == ' ') = true := fun x hx => by
    rw [List.eq_of_mem_replicate hx]; rfl
  have h_tw_sp : List.takeWhile (fun c => c == ' ') (List.replicate k ' ' ++ c6bar) =
      List.replicate k ' ' := by
    rw [takeWhile_append_of_all _ _ h_sp_space]
    simp [c6bar]
  have h_ind1 : TextBuffer.indentation ⟨c6text k, 7 + k⟩ = k := by
    simp only [TextBuffer.indentation, TextBuffer.lineNumberOf, h_take, h_count,
      TextBuffer.lineIndent, h_sol, h_drop7, h_tw_sp, List.length_replicate]
  have h_remk : (c6text k).drop (7 + k) = c6bar := by
    have h7 : (7 : Nat) + k = (['f', 'o', 'o', '.', '.', '.', '\n'] : List Char).length + k := by
      simp
    rw [c6text, h7, List.drop_append]
    exact List.drop_left' (by simp)
  have h_aux : ∀ base lastEol pos ind,
      TextBuffer.skipBlockAux base lastEol pos ind false c6bar = pos + 6 := by
    intro base lastEol pos ind
    simp [c6bar, TextBuffer.skipBlockAux]
  have h_skipblock : TextBuffer.skip_block ⟨c6text k, 7 + k⟩ = ⟨c6text k, 13 + k⟩ := by
    simp only [TextBuffer.skip_block, TextBuffer.remaining, h_remk, h_ind1, h_aux,
      TextBuffer.advance]
    simp only [TextBuffer.mk.injEq, true_and]
    omega
  have hc1 : ¬((k : Int) ≤ 0) := by omega
  have hc2 : ¬((k : Int) = 4) := by omega
  simp only [Rule.childLoop, h_delta, hc1, hc2, ne_eq, not_false_iff, if_true, if_false,
    h_sw, h_skipblock, h_pos1, List.nil_append, eq_self_iff_true, not_false_eq_true]

set_option maxHeartbeats 1000000 in
/-- C6: inside a name-extension rule's child loop, a next line whose
indentation delta is positive but not exactly four (here a child indented
by `k` spaces under a depth-zero extension, `0 < k`, `k ≠ 4`) makes the
parser append an "unexpected indentation increase" diagnostic positioned
at the child's first character, perform block recovery (the cursor ends
at the end of the text), and fail the whole enclosing rule. -/
theorem child_bad_indent_delta (fuel k : Nat) (hk : 0 < k) (hk4 : k ≠ 4) :
    Rule.parse (fuel + 2) ⟨c6text k, 0⟩ [] 0 =
      (.fail, ⟨c6text k, 13 + k⟩,
        [⟨"unexpected indentation increase", ⟨7 + k, 1, k⟩⟩]) ∧
    (c6text k).length = 13 + k := by
  refine ⟨?_, by simp [c6text, c6bar]; omega⟩
  exact parse_ext (fuel + 1) ⟨c6text k, 0⟩ ⟨c6text k, 3⟩ ⟨c6text k, 6⟩ ⟨c6text k, 13 + k⟩
    [] [⟨"unexpected indentation increase", ⟨7 + k, 1, k⟩⟩] 0 ['f', 'o', 'o'] false .abort
    rfl rfl rfl rfl rfl rfl rfl rfl rfl (c6_loop k hk hk4 fuel (Rule.parse (fuel + 1)))

/-- Witness for C6 at `k = 8` (a child indented by eight spaces). -/
theorem child_bad_indent_delta_witness :
    Rule.parse 2 ⟨c6text 8, 0⟩ [] 0 =
      (.fail, ⟨c6text 8, 21⟩,
        [⟨"unexpected indentation increase", ⟨15, 1, 8⟩⟩]) ∧
    (c6text 8).length = 21 :=
  child_bad_indent_delta 0 8 (by decide) (by decide)


/-- Concrete C8 input: a name-extension with two malformed children
(`bar:` and `baz:` miss their terms) around a well-formed sibling
(`mid: m`). -/
def c8text : List Char := "foo...\n    bar:\n    mid: m\n    baz:\n".toList

/-- C8: when a recursive child parse fails inside a name-extension rule,
the loop block-skips that child and continues with the following sibling
lines, appending no diagnostic of its own and marking the rule failed.
First part: the loop step on a failed child is exactly a recursive call
on the block-skipped buffer with `errors_found = true`.  Second part: on
the concrete input both malformed children's diagnostics appear in source
order (the well-formed sibling between them contributes none), the cursor
reaches the end of the input, and the whole rule returns the failure
sentinel with no further diagnostic. -/
theorem failed_child_recovery :
    (∀ (parseF : TextBuffer → List SyntaxError → Nat →
          PResult × TextBuffer × List SyntaxError)
        (fuel : Nat) (b b2 : TextBuffer) (errors e2 : List SyntaxError)
        (pc : Nat) (nm : String) (ref : Nat) (ef : Bool) (acc : List Rule),
      b.indentation_delta ref = 4 →
      parseF b.skip_whitespace errors (pc + 1) = (.fail, b2, e2) →
      Rule.childLoop parseF (fuel + 1) b errors pc nm ref ef acc =
        Rule.childLoop parseF fuel b2.skip_block e2 pc nm ref true acc) ∧
    Rule.parse 8 ⟨c8text, 0⟩ [] 0 =
      (.fail, ⟨c8text, 36⟩,
        [⟨"expected term", ⟨15, 1, 8⟩⟩, ⟨"expected term", ⟨35, 3, 8⟩⟩]) := by
  constructor
  · intro parseF fuel b b2 errors e2 pc nm ref ef acc hdelta hfailed
    simp only [Rule.childLoop, hdelta, hfailed,
      show ¬((4 : Int) ≤ 0) from by norm_num, if_false, if_true, ne_eq,
      eq_self_iff_true, not_true, not_false_iff, Bool.false_eq_true,
      not_true_eq_false]
  · decide

/-- Witness for C8's loop-step part, at the cursor after `foo...` with a
child parser that fails without appending. -/
theorem failed_child_recovery_witness :
    Rule.childLoop (fun b e _ => (.fail, b, e)) 1 ⟨c8text, 6⟩ [] 0 "foo" 0 false [] =
      Rule.childLoop (fun b e _ => (.fail, b, e)) 0
        (TextBuffer.skip_block (TextBuffer.skip_whitespace ⟨c8text, 6⟩)) [] 0 "foo" 0
        true [] :=
  failed_child_recovery.1 (fun b e _ => (.fail, b, e)) 0 ⟨c8text, 6⟩
    (TextBuffer.skip_whitespace ⟨c8text, 6⟩) [] [] 0 "foo" 0 false [] (by decide) rfl

mutual

/-- Well-formedness of a rule node: the `terminal` discriminant and the
variant payload agree (`terminal = true` exactly when the value holds an
owned Term, `terminal = false` exactly when it holds a child list), a
held child list is never empty, and the same holds recursively for every
child.  `RuleList.allWellFormed` is the child-list form. -/
def Rule.wellFormed : Rule → Bool
  | .mk (.term (some _)) _ _ _ t => t
  | .mk (.term none) _ _ _ _ => false
  | .mk (.children cs) _ _ _ t => !t && !cs.isEmpty && RuleList.allWellFormed cs

def RuleList.allWellFormed : RuleList → Bool
  | .nil => true
  | .cons r rest => r.wellFormed && RuleList.allWellFormed rest

end

theorem RuleList.isEmpty_addScope (p : String) (cs : RuleList) :
    (Rule.addScopeList p cs).isEmpty = cs.isEmpty := by
  cases cs <;> rfl

mutual

theorem Rule.wellFormed_add_parent_scope (p : String) :
    ∀ r : Rule, (Rule.add_parent_scope p r).wellFormed = r.wellFormed
  | .mk (.term t) pos sc n tm => by
    cases tm <;> cases t <;> rfl
  | .mk (.children cs) pos sc n tm => by
    cases tm with
    | true => rfl
    | false =>
      simp only [Rule.add_parent_scope, Rule.wellFormed,
        RuleList.allWellFormed_addScope p cs, RuleList.isEmpty_addScope]

theorem RuleList.allWellFormed_addScope (p : String) :
    ∀ cs : RuleList, (Rule.addScopeList p cs).allWellFormed = cs.allWellFormed
  | .nil => rfl
  | .cons r rest => by
    simp only [Rule.addScopeList, RuleList.allWellFormed,
      Rule.wellFormed_add_parent_scope p r, RuleList.allWellFormed_addScope p rest]

end

theorem RuleList.isEmpty_ofList (cs : List Rule) :
    (RuleList.ofList cs).isEmpty = cs.isEmpty := by
  cases cs <;> rfl

theorem RuleList.allWellFormed_ofList (cs : List Rule) :
    (RuleList.ofList cs).allWellFormed = cs.all Rule.wellFormed := by
  induction cs with
  | nil => rfl
  | cons r rest ih => simp [RuleList.ofList, RuleList.allWellFormed, ih]

theorem childLoop_wf
    (parseF : TextBuffer → List SyntaxError → Nat →
      PResult × TextBuffer × List SyntaxError)
    (hok : ∀ b e pc r b' e', parseF b e pc = (.ok r, b', e') → r.wellFormed = true) :
    ∀ fuel b e pc nm ref ef acc, acc.all Rule.wellFormed = true →
      ∀ ef' cs b' e',
        Rule.childLoop parseF fuel b e pc nm ref ef acc = (.done ef' cs, b', e') →
        cs.all Rule.wellFormed = true := by
  intro fuel
  induction fuel with
  | zero =>
    intro b e pc nm ref ef acc hacc ef' cs b' e' h
    simp [Rule.childLoop] at h
  | succ n ih =>
    intro b e pc nm ref ef acc hacc ef' cs b' e' h
    simp only [Rule.childLoop] at h
    split at h
    · simp only [Prod.mk.injEq, LoopResult.done.injEq] at h
      obtain ⟨⟨_, hcs⟩, _, _⟩ := h
      exact hcs ▸ hacc
    · split at h
      · simp at h
      · split at h
        · simp at h
        · exact ih _ _ _ _ _ _ _ hacc _ _ _ _ h
        · rename_i child b2 e2 heq
          split at h
          · simp at h
          · refine ih _ _ _ _ _ _ _ ?_ _ _ _ _ h
            simp only [List.all_append, hacc, List.all_cons, List.all_nil,
              Bool.and_true, Bool.true_and]
            rw [Rule.wellFormed_add_parent_scope]
            exact hok _ _ _ _ _ _ heq



/-- C2: every Rule returned successfully by `Rule::parse` satisfies the
well-formedness invariant: in particular a rule built from the
name-extension form has `terminal = false` and a non-empty child list as
its value, and the discriminant and the variant payload always agree,
recursively. -/
theorem rule_invariant_of_parse_ok :
    ∀ fuel b e pc r b' e',
      Rule.parse fuel b e pc = (.ok r, b', e') → r.wellFormed = true := by
  intro fuel
  induction fuel with
  | zero =>
    intro b e pc r b' e' h
    simp [Rule.parse] at h
  | succ n ih =>
    intro b e pc r b' e' h
    simp only [Rule.parse] at h
    split at h
    · simp at h
    · split at h
      · simp at h
      · split at h
        · simp at h
        · split at h
          · split at h
            · simp at h
            · rename_i term b4 e1 heq
              simp only [Prod.mk.injEq, PResult.ok.injEq] at h
              obtain ⟨hr, _, _⟩ := h
              subst hr
              rfl
          · split at h
            · split at h
              · simp at h
              · simp at h
              · rename_i ef cs b4 e2 heq
                split at h
                · simp at h
                · split at h
                  · simp at h
                  · rename_i hef hcs
                    simp only [Prod.mk.injEq, PResult.ok.injEq] at h
                    obtain ⟨hr, _, _⟩ := h
                    subst hr
                    simp only [Rule.wellFormed, Bool.not_false, Bool.true_and,
                      RuleList.isEmpty_ofList, RuleList.allWellFormed_ofList]
                    have hcs' : cs.isEmpty = false := by
                      cases hx : cs.isEmpty
                      · rfl
                      · exact absurd hx hcs
                    rw [hcs']
                    simp only [Bool.not_false, Bool.true_and]
                    exact childLoop_wf (Rule.parse n) ih n _ _ _ _ _ _ [] rfl _ _ _ _ heq
            · simp at h

/-- Witness for C2 on the nested example's successfully parsed tree. -/
theorem rule_invariant_of_parse_ok_witness : Rule.wellFormed fooRule = true :=
  rule_invariant_of_parse_ok 8 ⟨nestedText, 0⟩ [] 0 fooRule ⟨nestedText, 32⟩ []
    (by decide)

/-- A successful Term sub-parse appends no diagnostics. -/
theorem termParse_ok (b : TextBuffer) (e : List SyntaxError) (nl : Bool)
    (t : Term) (b' : TextBuffer) (e' : List SyntaxError)
    (h : Term.parse b e nl = (some t, b', e')) : e' = e := by
  simp only [Term.parse] at h
  split at h
  · simp at h
  · simp only [Prod.mk.injEq, Option.some.injEq] at h
    exact h.2.2.symm

/-- A failed Term sub-parse appends exactly one diagnostic. -/
theorem termParse_fail (b : TextBuffer) (e : List SyntaxError) (nl : Bool)
    (b' : TextBuffer) (e' : List SyntaxError)
    (h : Term.parse b e nl = (none, b', e')) :
    e' = e ++ [⟨"expected term", b.position⟩] := by
  simp only [Term.parse] at h
  split at h
  · simp only [Prod.mk.injEq] at h
    exact h.2.2.symm
  · simp at h

/-- Diagnostic discipline of the child loop: when the loop ends normally,
either nothing failed and the sink is unchanged with the incoming
`errors_found` flag, or the flag is true and at least one diagnostic was
appended; the in-loop abort path always appends at least one. -/
theorem childLoop_errors
    (parseF : TextBuffer → List SyntaxError → Nat →
      PResult × TextBuffer × List SyntaxError)
    (hok : ∀ b e pc r b' e', parseF b e pc = (.ok r, b', e') → e' = e)
    (hfail : ∀ b e pc b' e', parseF b e pc = (.fail, b', e') →
      ∃ d ds, e' = e ++ d :: ds) :
    ∀ fuel b e pc nm ref ef acc,
      (∀ ef' cs b' e',
        Rule.childLoop parseF fuel b e pc nm ref ef acc = (.done ef' cs, b', e') →
        (ef' = ef ∧ e' = e) ∨ (ef' = true ∧ ∃ d ds, e' = e ++ d :: ds)) ∧
      (∀ b' e',
        Rule.childLoop parseF fuel b e pc nm ref ef acc = (.abort, b', e') →
        ∃ d ds, e' = e ++ d :: ds) := by
  intro fuel
  induction fuel with
  | zero =>
    intro b e pc nm ref ef acc
    constructor
    · intro ef' cs b' e' h
      simp [Rule.childLoop] at h
    · intro b' e' h
      simp [Rule.childLoop] at h
  | succ n ih =>
    intro b e pc nm ref ef acc
    constructor
    · intro ef' cs b' e' h
      simp only [Rule.childLoop] at h
      split at h
      · simp only [Prod.mk.injEq, LoopResult.done.injEq] at h
        exact Or.inl ⟨h.1.1.symm, h.2.2.symm⟩
      · split at h
        · simp at h
        · split at h
          · simp at h
          · -- failed child: recurse with errors e2 = e ++ d :: ds and ef := true
            rename_i b2 e2 heq
            obtain ⟨d, ds, hds⟩ := hfail _ _ _ _ _ heq
            have := ((ih b2.skip_block e2 pc nm ref true acc).1 ef' cs b' e' h)
            rcases this with ⟨hef, he⟩ | ⟨hef, d', ds', hds'⟩
            · exact Or.inr ⟨hef, d, ds, by rw [he, hds]⟩
            · refine Or.inr ⟨hef, d, ds ++ d' :: ds', ?_⟩
              rw [hds', hds]
              simp [List.append_assoc]
          · -- successful child
            rename_i child b2 e2 heq
            split at h
            · simp at h
            · have he2 : e2 = e := hok _ _ _ _ _ _ heq
              have := ((ih b2 e2 pc nm ref ef
                (acc ++ [child.add_parent_scope nm])).1 ef' cs b' e' h)
              rw [he2] at this
              exact this
    · intro b' e' h
      simp only [Rule.childLoop] at h
      split at h
      · simp at h
      · split at h
        · simp only [Prod.mk.injEq] at h
          exact ⟨_, [], h.2.2.symm⟩
        · split at h
          · simp at h
          · rename_i b2 e2 heq
            obtain ⟨d, ds, hds⟩ := hfail _ _ _ _ _ heq
            obtain ⟨d', ds', hds'⟩ :=
              ((ih b2.skip_block e2 pc nm ref true acc).2 b' e' h)
            refine ⟨d, ds ++ d' :: ds', ?_⟩
            rw [hds', hds]
            simp [List.append_assoc]
          · rename_i child b2 e2 heq
            split at h
            · simp at h
            · have he2 : e2 = e := hok _ _ _ _ _ _ heq
              have := ((ih b2 e2 pc nm ref ef
                (acc ++ [child.add_parent_scope nm])).2 b' e' h)
              rw [he2] at this
              exact this


/-- The child-loop discipline specialised to the sink and flag shapes the
name-extension branch passes in (the trailing-characters conditional). -/
theorem childLoop_errors_trailing
    (parseF : TextBuffer → List SyntaxError → Nat →
      PResult × TextBuffer × List SyntaxError)
    (hok : ∀ b e pc r b' e', parseF b e pc = (.ok r, b', e') → e' = e)
    (hfail : ∀ b e pc b' e', parseF b e pc = (.fail, b', e') →
      ∃ d ds, e' = e ++ d :: ds)
    (fuel : Nat) (b : TextBuffer) (e : List SyntaxError) (pc : Nat) (nm : String)
    (ref : Nat) (pk : Char) (x : SyntaxError) :
    (∀ ef' cs b' e',
      Rule.childLoop parseF fuel b (if (pk != '\n') = true then e ++ [x] else e)
          pc nm ref (pk != '\n') [] =
        (.done ef' cs, b', e') →
      (ef' = false → e' = e) ∧ (ef' = true → ∃ d ds, e' = e ++ d :: ds)) ∧
    (∀ b' e',
      Rule.childLoop parseF fuel b (if (pk != '\n') = true then e ++ [x] else e)
          pc nm ref (pk != '\n') [] =
        (.abort, b', e') →
      ∃ d ds, e' = e ++ d :: ds) := by
  by_cases hc : pk = '\n'
  · have hcbf : (pk != '\n') = false := by simp [hc]
    rw [hcbf, if_neg (by simp : ¬(false = true))]
    constructor
    · intro ef' cs b' e' h
      rcases (childLoop_errors parseF hok hfail fuel b e pc nm ref false []).1
          _ _ _ _ h with ⟨hf, he⟩ | ⟨hf, d, ds, hds⟩
      · refine ⟨fun _ => he, fun ht => ?_⟩
        rw [hf] at ht
        exact absurd ht (by simp)
      · refine ⟨fun hff => ?_, fun _ => ⟨d, ds, hds⟩⟩
        rw [hff] at hf
        exact absurd hf.symm (by simp)
    · intro b' e' h
      exact (childLoop_errors parseF hok hfail fuel b e pc nm ref false []).2 _ _ h
  · have hcbt : (pk != '\n') = true := by simp [hc]
    rw [hcbt, if_pos rfl]
    constructor
    · intro ef' cs b' e' h
      rcases (childLoop_errors parseF hok hfail fuel b (e ++ [x]) pc nm ref true []).1
          _ _ _ _ h with ⟨hf, he⟩ | ⟨hf, d, ds, hds⟩
      · refine ⟨fun hff => ?_, fun _ => ⟨x, [], he⟩⟩
        rw [hff] at hf
        exact absurd hf (by simp)
      · refine ⟨fun hff => ?_, fun _ => ⟨x, d :: ds, ?_⟩⟩
        · rw [hff] at hf
          exact absurd hf (by simp)
        · rw [hds]
          simp
    · intro b' e' h
      obtain ⟨d, ds, hds⟩ :=
        (childLoop_errors parseF hok hfail fuel b (e ++ [x]) pc nm ref true []).2 _ _ h
      refine ⟨x, d :: ds, ?_⟩
      rw [hds]
      simp

/-- Diagnostic discipline of `Rule::parse`: a non-null return appends
nothing; a failure-sentinel return appends at least one diagnostic. -/
theorem parse_errs :
    ∀ fuel,
      (∀ b e pc r b' e', Rule.parse fuel b e pc = (.ok r, b', e') → e' = e) ∧
      (∀ b e pc b' e', Rule.parse fuel b e pc = (.fail, b', e') →
        ∃ d ds, e' = e ++ d :: ds) := by
  intro fuel
  induction fuel with
  | zero =>
    constructor
    · intro b e pc r b' e' h
      simp [Rule.parse] at h
    · intro b e pc b' e' h
      simp [Rule.parse] at h
  | succ n ih =>
    obtain ⟨ihok, ihfail⟩ := ih
    constructor
    · intro b e pc r b' e' h
      simp only [Rule.parse] at h
      split at h
      · simp at h
      · split at h
        · simp at h
        · split at h
          · simp at h
          · split at h
            · -- terminal branch
              split at h
              · simp at h
              · rename_i term b4 e1 heq
                simp only [Prod.mk.injEq, PResult.ok.injEq] at h
                rw [← h.2.2]
                exact termParse_ok _ _ _ _ _ _ heq
            · -- not ':'
              split at h
              · -- name-extension branch: split the childLoop match
                split at h
                · simp at h
                · simp at h
                · rename_i ef cs b4 e2 heq
                  split at h
                  · simp at h
                  · split at h
                    · simp at h
                    · rename_i hef hcs
                      have hef' : ef = false := by
                        cases hx : ef
                        · rfl
                        · exact absurd hx hef
                      simp only [Prod.mk.injEq, PResult.ok.injEq] at h
                      rw [← h.2.2]
                      exact ((childLoop_errors_trailing (Rule.parse n) ihok ihfail
                        n _ e _ _ _ _ _).1
                        _ _ _ _ heq).1 hef'
              · simp at h
    · intro b e pc b' e' h
      simp only [Rule.parse] at h
      split at h
      · simp only [Prod.mk.injEq] at h
        exact ⟨_, [], h.2.2.symm⟩
      · split at h
        · simp only [Prod.mk.injEq] at h
          exact ⟨_, [], h.2.2.symm⟩
        · split at h
          · simp at h
          · split at h
            · -- terminal branch
              split at h
              · rename_i b4 e1 heq
                simp only [Prod.mk.injEq] at h
                rw [← h.2.2]
                exact ⟨_, [], termParse_fail _ _ _ _ _ heq⟩
              · simp at h
            · -- not ':'
              split at h
              · -- name-extension branch
                split at h
                · simp at h
                · -- abort
                  rename_i b4 e2 heq
                  simp only [Prod.mk.injEq] at h
                  rw [← h.2.2]
                  exact (childLoop_errors_trailing (Rule.parse n) ihok ihfail
                    n _ e _ _ _ _ _).2 _ _ heq
                · -- done
                  rename_i ef cs b4 e2 heq
                  split at h
                  · -- errors_found set: loop errors stand, none added
                    rename_i hef
                    simp only [Prod.mk.injEq] at h
                    rw [← h.2.2]
                    exact ((childLoop_errors_trailing (Rule.parse n) ihok ihfail
                      n _ e _ _ _ _ _).1
                      _ _ _ _ heq).2 hef
                  · split at h
                    · -- no children found
                      rename_i hef hcs
                      have hef' : ef = false := by
                        cases hx : ef
                        · rfl
                        · exact absurd hx hef
                      simp only [Prod.mk.injEq] at h
                      rw [← h.2.2]
                      have he2 : e2 = e :=
                        ((childLoop_errors_trailing (Rule.parse n) ihok ihfail
                          n _ e _ _ _ _ _).1
                          _ _ _ _ heq).1 hef'
                      rw [he2]
                      exact ⟨_, [], rfl⟩
                    · simp at h
              · -- neither ':' nor '...'
                simp only [Prod.mk.injEq] at h
                exact ⟨_, [], h.2.2.symm⟩

/-- C4: every invocation of `Rule::parse` returns a non-null Rule only if
it appended no diagnostics to the sink (so a successful top-level parse
from an empty sink leaves it empty), and every return of the failure
sentinel is accompanied by at least one diagnostic appended during that
call or its sub-calls; the internal-fault outcome is not constrained. -/
theorem parse_errors_discipline (fuel : Nat) (b : TextBuffer)
    (errors : List SyntaxError) (pc : Nat) (outcome : PResult)
    (b' : TextBuffer) (errors' : List SyntaxError)
    (h : Rule.parse fuel b errors pc = (outcome, b', errors')) :
    (∀ r, outcome = .ok r → errors' = errors) ∧
    (outcome = .fail → ∃ d ds, errors' = errors ++ d :: ds) := by
  constructor
  · intro r hr
    subst hr
    exact (parse_errs fuel).1 _ _ _ _ _ _ h
  · intro hf
    subst hf
    exact (parse_errs fuel).2 _ _ _ _ _ h

/-- Witness for C4 at a concrete failing parse (bad indentation). -/
theorem parse_errors_discipline_witness :
    (∀ r, (PResult.fail : PResult) = .ok r →
      ([⟨"invalid indentation level", ⟨0, 0, 0⟩⟩] : List SyntaxError) = []) ∧
    ((PResult.fail : PResult) = .fail →
      ∃ d ds, ([⟨"invalid indentation level", ⟨0, 0, 0⟩⟩] : List SyntaxError) =
        [] ++ d :: ds) :=
  parse_errors_discipline 1 ⟨"  x: a".toList, 0⟩ [] 0 .fail ⟨"  x: a".toList, 0⟩
    [⟨"invalid indentation level", ⟨0, 0, 0⟩⟩] (by decide)

/-- The Term sub-parser only ever appends to the diagnostic sink. -/
theorem termParse_appends (b : TextBuffer) (e : List SyntaxError) (nl : Bool)
    (res : Option Term) (b' : TextBuffer) (e' : List SyntaxError)
    (h : Term.parse b e nl = (res, b', e')) : ∃ ds, e' = e ++ ds := by
  simp only [Term.parse] at h
  split at h
  · simp only [Prod.mk.injEq] at h
    exact ⟨_, h.2.2.symm⟩
  · simp only [Prod.mk.injEq] at h
    exact ⟨[], by rw [← h.2.2, List.append_nil]⟩

/-- The child loop only ever appends to the diagnostic sink, provided the
child parser it recurses through does. -/
theorem childLoop_appends
    (parseF : TextBuffer → List SyntaxError → Nat →
      PResult × TextBuffer × List SyntaxError)
    (hF : ∀ b e pc out b' e', parseF b e pc = (out, b', e') → ∃ ds, e' = e ++ ds) :
    ∀ fuel b e pc nm ref ef acc out b' e',
      Rule.childLoop parseF fuel b e pc nm ref ef acc = (out, b', e') →
      ∃ ds, e' = e ++ ds := by
  intro fuel
  induction fuel with
  | zero =>
    intro b e pc nm ref ef acc out b' e' h
    simp only [Rule.childLoop, Prod.mk.injEq] at h
    exact ⟨[], by rw [← h.2.2, List.append_nil]⟩
  | succ n ih =>
    intro b e pc nm ref ef acc out b' e' h
    simp only [Rule.childLoop] at h
    split at h
    · simp only [Prod.mk.injEq] at h
      exact ⟨[], by rw [← h.2.2, List.append_nil]⟩
    · split at h
      · simp only [Prod.mk.injEq] at h
        exact ⟨_, h.2.2.symm⟩
      · split at h
        · rename_i m b2 e2 heq
          simp only [Prod.mk.injEq] at h
          obtain ⟨ds, hds⟩ := hF _ _ _ _ _ _ heq
          exact ⟨ds, by rw [← h.2.2, hds]⟩
        · rename_i b2 e2 heq
          obtain ⟨ds, hds⟩ := hF _ _ _ _ _ _ heq
          obtain ⟨ds', hds'⟩ := ih _ _ _ _ _ _ _ _ _ _ h
          exact ⟨ds ++ ds', by rw [hds', hds, List.append_assoc]⟩
        · rename_i child b2 e2 heq
          split at h
          · simp only [Prod.mk.injEq] at h
            obtain ⟨ds, hds⟩ := hF _ _ _ _ _ _ heq
            exact ⟨ds, by rw [← h.2.2, hds]⟩
          · obtain ⟨ds, hds⟩ := hF _ _ _ _ _ _ heq
            obtain ⟨ds', hds'⟩ := ih _ _ _ _ _ _ _ _ _ _ h
            exact ⟨ds ++ ds', by rw [hds', hds, List.append_assoc]⟩

/-- `Rule::parse` only ever appends to the diagnostic sink, whatever its
outcome (fuel induction over every branch of the parser). -/
theorem parse_appends :
    ∀ fuel b e pc out b' e',
      Rule.parse fuel b e pc = (out, b', e') → ∃ ds, e' = e ++ ds := by
  intro fuel
  induction fuel with
  | zero =>
    intro b e pc out b' e' h
    simp only [Rule.parse, Prod.mk.injEq] at h
    exact ⟨[], by rw [← h.2.2, List.append_nil]⟩
  | succ n ih =>
    intro b e pc out b' e' h
    simp only [Rule.parse] at h
    split at h
    · simp only [Prod.mk.injEq] at h
      exact ⟨_, h.2.2.symm⟩
    · split at h
      · simp only [Prod.mk.injEq] at h
        exact ⟨_, h.2.2.symm⟩
      · split at h
        · simp only [Prod.mk.injEq] at h
          exact ⟨[], by rw [← h.2.2, List.append_nil]⟩
        · split at h
          · split at h
            · rename_i b4 e1 heq
              simp only [Prod.mk.injEq] at h
              obtain ⟨ds, hds⟩ := termParse_appends _ _ _ _ _ _ heq
              exact ⟨ds, by rw [← h.2.2, hds]⟩
            · rename_i t b4 e1 heq
              simp only [Prod.mk.injEq] at h
              obtain ⟨ds, hds⟩ := termParse_appends _ _ _ _ _ _ heq
              exact ⟨ds, by rw [← h.2.2, hds]⟩
          · split at h
            · have hcomb : ∀ (c : Bool) (x : SyntaxError) (ds e2' : List SyntaxError),
                  e2' = (if c = true then e ++ [x] else e) ++ ds →
                  ∃ ds', e2' = e ++ ds' := by
                intro c x ds e2' hh
                cases c
                · exact ⟨ds, by simpa using hh⟩
                · exact ⟨x :: ds, by simpa using hh⟩
              split at h
              · rename_i m b4 e2 heq
                simp only [Prod.mk.injEq] at h
                obtain ⟨ds, hds⟩ :=
                  childLoop_appends (Rule.parse n) ih n _ _ _ _ _ _ _ _ _ _ heq
                obtain ⟨ds', hds'⟩ := hcomb _ _ _ _ hds
                exact ⟨ds', by rw [← h.2.2, hds']⟩
              · rename_i b4 e2 heq
                simp only [Prod.mk.injEq] at h
                obtain ⟨ds, hds⟩ :=
                  childLoop_appends (Rule.parse n) ih n _ _ _ _ _ _ _ _ _ _ heq
                obtain ⟨ds', hds'⟩ := hcomb _ _ _ _ hds
                exact ⟨ds', by rw [← h.2.2, hds']⟩
              · rename_i ef cs b4 e2 heq
                obtain ⟨ds, hds⟩ :=
                  childLoop_appends (Rule.parse n) ih n _ _ _ _ _ _ _ _ _ _ heq
                obtain ⟨ds', hds'⟩ := hcomb _ _ _ _ hds
                split at h
                · simp only [Prod.mk.injEq] at h
                  exact ⟨ds', by rw [← h.2.2, hds']⟩
                · split at h
                  · simp only [Prod.mk.injEq] at h
                    exact ⟨_, by rw [← h.2.2, hds', List.append_assoc]⟩
                  · simp only [Prod.mk.injEq] at h
                    exact ⟨ds', by rw [← h.2.2, hds']⟩
            · simp only [Prod.mk.injEq] at h
              exact ⟨_, h.2.2.symm⟩

/-- The `errors_found` flag of the child loop is sticky: a loop entered
with the flag already set can only finish with it set (line 137 sets it
before the loop, lines 150-151 and 166 never clear it). -/
theorem childLoop_flag_mono
    (parseF : TextBuffer → List SyntaxError → Nat →
      PResult × TextBuffer × List SyntaxError) :
    ∀ fuel b e pc nm ref acc ef' cs b' e',
      Rule.childLoop parseF fuel b e pc nm ref true acc = (.done ef' cs, b', e') →
      ef' = true := by
  intro fuel
  induction fuel with
  | zero =>
    intro b e pc nm ref acc ef' cs b' e' h
    simp [Rule.childLoop] at h
  | succ n ih =>
    intro b e pc nm ref acc ef' cs b' e' h
    simp only [Rule.childLoop] at h
    split at h
    · simp only [Prod.mk.injEq, LoopResult.done.injEq] at h
      exact h.1.1.symm
    · split at h
      · simp at h
      · split at h
        · simp at h
        · exact ih _ _ _ _ _ _ _ _ _ _ h
        · split at h
          · simp at h
          · exact ih _ _ _ _ _ _ _ _ _ _ h

/-- C3 amended: for EVERY parse that reaches the name-extension branch
with trailing non-whitespace after `...` (the buffer/cursor hypotheses
spell out that path: valid indentation, a non-empty name, no colon, the
three dots, and a non-newline after inline-space skipping), the parser
appends the "trailing characters" diagnostic and still proceeds to the
child loop, but the diagnostic marks the rule as failed, so the rule
itself is never returned: the outcome is the failure sentinel (or an
internal logic fault raised inside the loop), even when no child fails,
and the diagnostic sink extends the input sink starting with that
diagnostic.  The two concrete conjuncts run it: `foo... x` alone, and
`foo... x` with a well-formed child, which still fails while collecting a
further diagnostic. -/
theorem trailing_characters_diag_then_rule_fails :
    (∀ (fuel : Nat) (b b2 b3 : TextBuffer) (errors : List SyntaxError) (pc : Nat)
        (nameChars : List Char) (outcome : PResult) (b' : TextBuffer)
        (e' : List SyntaxError),
      b.indentation % 4 = 0 → b.indentation = pc * 4 →
      b.remaining.takeWhile isNameChar = nameChars → nameChars.isEmpty = false →
      (b.advance nameChars.length).skip_space false = b2 →
      (b2.peek == ':') = false →
      List.isPrefixOf ['.', '.', '.'] b2.remaining = true →
      (b2.advance 3).skip_space true = b3 →
      (b3.peek != '\n') = true →
      Rule.parse (fuel + 1) b errors pc = (outcome, b', e') →
      (outcome = .fail ∨ ∃ m, outcome = .fault m) ∧
      ∃ ds, e' = errors ++
        ⟨"trailing characters after \x27...\x27", b3.position⟩ :: ds) ∧
    Rule.parse 3 ⟨trailingText, 0⟩ [] 0 =
      (.fail, ⟨trailingText, 7⟩,
        [⟨"trailing characters after \x27...\x27", ⟨7, 0, 7⟩⟩]) ∧
    Rule.parse 4 ⟨trailingChildText, 0⟩ [] 0 =
      (.fail, ⟨trailingChildText, 20⟩,
        [⟨"trailing characters after \x27...\x27", ⟨7, 0, 7⟩⟩,
          ⟨"unexpected indentation increase", ⟨7, 0, 7⟩⟩]) := by
  refine ⟨?_, by decide, by decide⟩
  intro fuel b b2 b3 errors pc nameChars outcome b' e' h4 hpc hname hne hb2 hcolon
    hdots hb3 htrail hparse
  rcases hcl : Rule.childLoop (Rule.parse fuel) fuel b3
      (errors ++ [⟨"trailing characters after \x27...\x27", b3.position⟩])
      pc ⟨nameChars⟩ b.position.line_number true [] with ⟨res, b4, e2⟩
  have hloop : Rule.childLoop (Rule.parse fuel) fuel b3
      (if (true : Bool) = true then
        errors ++ [⟨"trailing characters after \x27...\x27", b3.position⟩]
      else errors)
      pc ⟨nameChars⟩ b.position.line_number true [] = (res, b4, e2) := by
    simpa using hcl
  have hpp := parse_ext fuel b b2 b3 b4 errors e2 pc nameChars true res
    h4 hpc hname hne hb2 hcolon hdots hb3 htrail hloop
  rw [hparse] at hpp
  obtain ⟨ds, hds⟩ :=
    childLoop_appends (Rule.parse fuel) (fun b e pc out b' e' =>
      parse_appends fuel b e pc out b' e') fuel _ _ _ _ _ _ _ _ _ _ hcl
  cases res with
  | fault m =>
    simp only [Prod.mk.injEq] at hpp
    refine ⟨Or.inr ⟨m, hpp.1⟩, ds, ?_⟩
    rw [hpp.2.2, hds]
    simp
  | abort =>
    simp only [Prod.mk.injEq] at hpp
    refine ⟨Or.inl hpp.1, ds, ?_⟩
    rw [hpp.2.2, hds]
    simp
  | done ef cs =>
    have hef : ef = true := childLoop_flag_mono (Rule.parse fuel) fuel _ _ _ _ _ _ _ _ _ _ hcl
    subst hef
    simp only [eq_self_iff_true, if_true, Prod.mk.injEq] at hpp
    refine ⟨Or.inl hpp.1, ds, ?_⟩
    rw [hpp.2.2, hds]
    simp

/-- Witness for C3 on `foo... x` at fuel 3: the trailing-characters path
is taken and the universal conclusion holds at that concrete input. -/
theorem trailing_characters_diag_then_rule_fails_witness :
    ((PResult.fail = .fail ∨ ∃ m, PResult.fail = .fault m) ∧
      ∃ ds, [(⟨"trailing characters after \x27...\x27", ⟨7, 0, 7⟩⟩ : SyntaxError)] =
        [] ++ ⟨"trailing characters after \x27...\x27",
          (⟨trailingText, 7⟩ : TextBuffer).position⟩ :: ds) :=
  trailing_characters_diag_then_rule_fails.1 2 ⟨trailingText, 0⟩ ⟨trailingText, 3⟩
    ⟨trailingText, 7⟩ [] 0 ['f', 'o', 'o'] .fail ⟨trailingText, 7⟩
    [⟨"trailing characters after \x27...\x27", ⟨7, 0, 7⟩⟩]
    (by decide) (by decide) (by decide) (by decide) (by decide) (by decide)
    (by decide) (by decide) (by decide) (by decide)

/-- `Rule::add_parent_scope` pushes the parent name onto the back of the
scope vector. -/
theorem Rule.scope_add (p : String) (r : Rule) :
    (Rule.add_parent_scope p r).scope = r.scope ++ [p] := by
  cases r with
  | mk v pos sc n t => cases t <;> cases v <;> rfl

mutual

/-- Scope coherence of a rule tree: below a non-terminal node whose
children are owned (terminal flag false, matching how the parser builds
them), every child carries exactly the scope of its parent extended at
the FRONT by the parent name.  Read off any node, this makes its scope
its ancestor chain listed innermost ancestor first. -/
def Rule.scopesCoherent : Rule → Bool
  | .mk (.term _) _ _ _ _ => true
  | .mk (.children cs) _ sc n t =>
    if t then true else RuleList.scopesBelow (n :: sc) cs

/-- Every rule of the list has the expected scope and is itself
coherent. -/
def RuleList.scopesBelow (expected : List String) : RuleList → Bool
  | .nil => true
  | .cons c rest =>
    (c.scope == expected) && c.scopesCoherent && RuleList.scopesBelow expected rest

end

mutual

/-- `add_parent_scope` preserves scope coherence: it appends the same
name to the scope of a rule and of everything below it. -/
theorem Rule.scopesCoherent_add (p : String) :
    ∀ r : Rule, (Rule.add_parent_scope p r).scopesCoherent = r.scopesCoherent
  | .mk (.term v) pos sc n t => by cases t <;> rfl
  | .mk (.children cs) pos sc n t => by
    cases t with
    | true => rfl
    | false =>
      show RuleList.scopesBelow (n :: (sc ++ [p])) (Rule.addScopeList p cs) =
        RuleList.scopesBelow (n :: sc) cs
      rw [← List.cons_append]
      exact RuleList.scopesBelow_add p (n :: sc) cs

/-- `addScopeList` shifts the expected scope of a coherent list by the
appended parent name. -/
theorem RuleList.scopesBelow_add (p : String) :
    ∀ (exp : List String) (cs : RuleList),
      RuleList.scopesBelow (exp ++ [p]) (Rule.addScopeList p cs) =
        RuleList.scopesBelow exp cs
  | _, .nil => rfl
  | exp, .cons c rest => by
    simp only [Rule.addScopeList, RuleList.scopesBelow]
    rw [Rule.scope_add, Rule.scopesCoherent_add p c,
      RuleList.scopesBelow_add p exp rest]
    have hbeq : ((c.scope ++ [p]) == (exp ++ [p])) = (c.scope == exp) := by
      by_cases hce : c.scope = exp
      · simp [hce]
      · simp [beq_eq_false_iff_ne, hce, fun h => hce ((List.append_left_inj [p]).mp h)]
    rw [hbeq]

end

/-- `scopesBelow` over a converted Lean list is the pointwise check. -/
theorem RuleList.scopesBelow_ofList (exp : List String) (l : List Rule) :
    RuleList.scopesBelow exp (RuleList.ofList l) =
      l.all (fun c => (c.scope == exp) && c.scopesCoherent) := by
  induction l with
  | nil => rfl
  | cons c rest ih =>
    simp only [RuleList.ofList, RuleList.scopesBelow, List.all_cons, ih]

/-- Every child collected by the child loop ends up with scope exactly
`[nm]` and a coherent subtree, provided the recursive parser returns
empty-scoped coherent rules and the accumulator already satisfies the
invariant. -/
theorem childLoop_scopes
    (parseF : TextBuffer → List SyntaxError → Nat →
      PResult × TextBuffer × List SyntaxError)
    (hok : ∀ b e pc r b' e', parseF b e pc = (.ok r, b', e') →
      r.scope = [] ∧ r.scopesCoherent = true) :
    ∀ fuel b e pc nm ref ef acc,
      acc.all (fun c => (c.scope == [nm]) && c.scopesCoherent) = true →
      ∀ ef' cs b' e',
        Rule.childLoop parseF fuel b e pc nm ref ef acc = (.done ef' cs, b', e') →
        cs.all (fun c => (c.scope == [nm]) && c.scopesCoherent) = true := by
  intro fuel
  induction fuel with
  | zero =>
    intro b e pc nm ref ef acc hacc ef' cs b' e' h
    simp [Rule.childLoop] at h
  | succ n ih =>
    intro b e pc nm ref ef acc hacc ef' cs b' e' h
    simp only [Rule.childLoop] at h
    split at h
    · simp only [Prod.mk.injEq, LoopResult.done.injEq] at h
      obtain ⟨⟨_, hcs⟩, _, _⟩ := h
      exact hcs ▸ hacc
    · split at h
      · simp at h
      · split at h
        · simp at h
        · exact ih _ _ _ _ _ _ _ hacc _ _ _ _ h
        · rename_i child b2 e2 heq
          split at h
          · simp at h
          · refine ih _ _ _ _ _ _ _ ?_ _ _ _ _ h
            obtain ⟨hsc, hco⟩ := hok _ _ _ _ _ _ heq
            simp only [List.all_append, hacc, List.all_cons, List.all_nil,
              Bool.and_true, Bool.true_and]
            rw [Rule.scope_add, Rule.scopesCoherent_add, hsc, hco]
            simp

/-- Every rule returned successfully by `Rule::parse` has an empty scope
of its own and a scope-coherent tree below it (fuel induction: the
terminal branch returns a leaf; the name-extension branch scopes each
collected child through `add_parent_scope`). -/
theorem parse_ok_scopes :
    ∀ fuel b e pc r b' e',
      Rule.parse fuel b e pc = (.ok r, b', e') →
      r.scope = [] ∧ r.scopesCoherent = true := by
  intro fuel
  induction fuel with
  | zero =>
    intro b e pc r b' e' h
    simp [Rule.parse] at h
  | succ n ih =>
    intro b e pc r b' e' h
    simp only [Rule.parse] at h
    split at h
    · simp at h
    · split at h
      · simp at h
      · split at h
        · simp at h
        · split at h
          · split at h
            · simp at h
            · rename_i term b4 e1 heq
              simp only [Prod.mk.injEq, PResult.ok.injEq] at h
              obtain ⟨hr, _, _⟩ := h
              subst hr
              exact ⟨rfl, rfl⟩
          · split at h
            · split at h
              · simp at h
              · simp at h
              · rename_i ef cs b4 e2 heq
                split at h
                · simp at h
                · split at h
                  · simp at h
                  · rename_i hef hcs
                    simp only [Prod.mk.injEq, PResult.ok.injEq] at h
                    obtain ⟨hr, _, _⟩ := h
                    subst hr
                    refine ⟨rfl, ?_⟩
                    show (if false then true else _) = true
                    rw [if_neg (by simp)]
                    rw [RuleList.scopesBelow_ofList]
                    exact childLoop_scopes (Rule.parse n) ih n _ _ _ _ _ _ []
                      rfl _ _ _ _ heq
            · simp at h

/-- C1 amended: for EVERY successful parse, the returned rule has an
empty scope and a scope-coherent tree: each rule below it carries, as its
scope, its chain of enclosing name-extended ancestor names listed from
innermost to outermost (each ancestor name is pushed onto the back after
the subtree below it completes), excluding the rule's own name.  In
particular the concrete conjuncts: parsing `foo...` containing `bar...`
containing `qux: a` yields `qux.scope == ["bar", "foo"]` and
`bar.scope == ["foo"]`. -/
theorem scope_order_innermost_first :
    (∀ (fuel : Nat) (b : TextBuffer) (errors : List SyntaxError) (pc : Nat)
        (r : Rule) (b' : TextBuffer) (errors' : List SyntaxError),
      Rule.parse fuel b errors pc = (.ok r, b', errors') →
      r.scope = [] ∧ r.scopesCoherent = true) ∧
    Rule.parse 8 ⟨nestedText, 0⟩ [] 0 = (.ok fooRule, ⟨nestedText, 32⟩, []) ∧
    quxRule.scope = ["bar", "foo"] ∧ barRule.scope = ["foo"] :=
  ⟨fun fuel b errors pc r b' errors' h =>
    parse_ok_scopes fuel b errors pc r b' errors' h,
   by decide, rfl, rfl⟩

/-- Witness for C1 on the nested example: the universal part applied at
the concrete successful parse of `nestedText`. -/
theorem scope_order_innermost_first_witness :
    Rule.scope fooRule = [] ∧ Rule.scopesCoherent fooRule = true :=
  scope_order_innermost_first.1 8 ⟨nestedText, 0⟩ [] 0 fooRule ⟨nestedText, 32⟩ []
    (by decide)

end Pimlico

